import Mathlib

/-!
Verification of the core logic of the badminton-court monitoring scripts
(`monitor_appointment.py`): the continuous-period merge, the day-scoped
notification memory, the date-key extraction, the scan-day count and the
merge-bypass branch of `main`.  Python functions are embedded as pure Lean
functions; the ambient globals (`LEAST_TIME_LENGTH`, `MEMORY_THRESHOLD`, the
current Beijing date and wall-clock hour) become explicit parameters, and the
memory-file I/O becomes an explicit read-outcome parameter.
-/

set_option linter.unusedVariables false

namespace Monitor

/-- Characters treated as whitespace by Python's `str.strip` / `str.split`
and by the regex class `\s` (the code points that can occur here). -/
def isPySpace (c : Char) : Bool :=
  c == ' ' || c == '\t' || c == '\n' || c == '\r' || c == '\x0b' || c == '\x0c' ||
    c == '\u00A0' || c == '\u3000'

/-- Python `str.strip()` on a character list. -/
def stripChars (cs : List Char) : List Char :=
  ((cs.dropWhile isPySpace).reverse.dropWhile isPySpace).reverse

/-- Python `str.strip()`. -/
def pyStrip (s : String) : String :=
  String.mk (stripChars s.data)

/-- Numeric value of a decimal digit character. -/
def digitVal (c : Char) : Nat := c.toNat - '0'.toNat

/-- The character class `[:：]` of `time_re`: ASCII or full-width colon. -/
def isColon (c : Char) : Bool := c == ':' || c == '：'

/-- Does `pat` occur at the head of the text? (used for Python's `in`). -/
def headMatches : List Char → List Char → Bool
  | [], _ => true
  | _ :: _, [] => false
  | a :: pat, b :: text => a == b && headMatches pat text

/-- Python's substring test `pat in text`. -/
def containsSub (pat : List Char) : List Char → Bool
  | [] => headMatches pat []
  | c :: rest => headMatches pat (c :: rest) || containsSub pat rest

/-- `\d{2}` of `time_re`: exactly two digits; value plus remaining input. -/
def twoDigits : List Char → Option (Nat × List Char)
  | a :: b :: rest =>
    if a.isDigit && b.isDigit then some (10 * digitVal a + digitVal b, rest) else none
  | _ => none

/-- `\d{1,2}[:：]` of `time_re`: greedily two digits, else one, then a colon. -/
def hourColon : List Char → Option (Nat × List Char)
  | a :: b :: c :: rest =>
    if a.isDigit && b.isDigit && isColon c then some (10 * digitVal a + digitVal b, rest)
    else if a.isDigit && isColon b then some (digitVal a, c :: rest)
    else none
  | [a, b] => if a.isDigit && isColon b then some (digitVal a, []) else none
  | _ => none

/-- `\d{1,2}[:：]\d{2}`: one clock time, returned as minutes since midnight. -/
def timeToken (cs : List Char) : Option (Nat × List Char) :=
  match hourColon cs with
  | none => none
  | some (h, rest) =>
    match twoDigits rest with
    | none => none
    | some (m, rest2) => some (h * 60 + m, rest2)

/-- `\(start\s*-\s*end\)` of `time_re`, tried at one position: the input must
begin with `(`, a start time, optional whitespace, `-`, optional whitespace,
an end time and `)`.  Returns the start time in minutes. -/
def parenMatchAt (cs : List Char) : Option Nat :=
  match cs with
  | '(' :: rest =>
    match timeToken rest with
    | none => none
    | some (startMin, r1) =>
      match r1.dropWhile isPySpace with
      | '-' :: r3 =>
        match timeToken (r3.dropWhile isPySpace) with
        | none => none
        | some (_, r5) =>
          match r5 with
          | ')' :: _ => some startMin
          | _ => none
      | _ => none
  | _ => none

/-- The greedy `.*\(...\)` tail of `time_re`: among all positions before the
first newline (`.` does not cross `'\n'`), the start time of the last
position where the parenthesised time range matches. -/
def scanParens : List Char → Option Nat → Option Nat
  | [], acc => acc
  | c :: rest, acc =>
    if c = '\n' then acc
    else
      scanParens rest
        (match parenMatchAt (c :: rest) with
         | some v => some v
         | none => acc)

/-- Split at the first `|`, returning the prefix and the suffix. -/
def splitFirstBar : List Char → Option (List Char × List Char)
  | [] => none
  | c :: rest =>
    if c = '|' then some ([], rest)
    else
      match splitFirstBar rest with
      | some (l, r) => some (c :: l, r)
      | none => none

/-- `time_re.search(line)` for
`^(?P<left>.*?)\|.*\((?P<start>\d{1,2}[:：]\d{2})\s*-\s*(?P<end>\d{1,2}[:：]\d{2})\)`:
the lazy `left` group stops at the first `|` (and cannot cross a newline),
and the greedy `.*` picks the last parenthesised time range after it.
Returns the `left` group and the start time in minutes. -/
def timeReSearch (cs : List Char) : Option (List Char × Nat) :=
  match splitFirstBar cs with
  | none => none
  | some (left, rest) =>
    if left.any (· == '\n') then none
    else
      match scanParens rest none with
      | some v => some (left, v)
      | none => none

/-- The dash-or-slash separator class in the date regex of `normalize_date_key`. -/
def sepDash (c : Char) : Bool := c == '-' || c == '/'

/-- `\d{1,2}` followed by a terminator satisfying `p` (with the greedy
backtracking of the Python engine); returns the consumed characters,
terminator included, and the rest. -/
def digits12Sep (p : Char → Bool) : List Char → Option (List Char × List Char)
  | a :: b :: c :: rest =>
    if a.isDigit && b.isDigit && p c then some ([a, b, c], rest)
    else if a.isDigit && p b then some ([a, b], c :: rest)
    else none
  | [a, b] => if a.isDigit && p b then some ([a, b], []) else none
  | _ => none

/-- A trailing `\d{1,2}` with nothing after it in the pattern: greedily two
digits, else one; returns the consumed characters. -/
def digits12 : List Char → Option (List Char)
  | a :: b :: _ =>
    if a.isDigit && b.isDigit then some [a, b]
    else if a.isDigit then some [a] else none
  | [a] => if a.isDigit then some [a] else none
  | [] => none

/-- First alternative of the date regex (four year digits, a dash-or-slash
separator, one or two month digits, a separator, one or two day digits),
tried at one position; returns the matched characters. -/
def matchFullDate : List Char → Option (List Char)
  | a :: b :: c :: d :: rest =>
    if a.isDigit && b.isDigit && c.isDigit && d.isDigit then
      match rest with
      | s :: rest2 =>
        if sepDash s then
          match digits12Sep sepDash rest2 with
          | some (mid, rest3) =>
            match digits12 rest3 with
            | some dayd => some ([a, b, c, d, s] ++ mid ++ dayd)
            | none => none
          | none => none
        else none
      | [] => none
    else none
  | _ => none

/-- Second alternative `\d{1,2}-\d{1,2}` of the date regex. -/
def matchMMDD (cs : List Char) : Option (List Char) :=
  match digits12Sep (· == '-') cs with
  | some (mon, rest) =>
    match digits12 rest with
    | some dayd => some (mon ++ dayd)
    | none => none
  | none => none

/-- Third alternative `\d{1,2}月\d{1,2}日` of the date regex. -/
def matchCNDate (cs : List Char) : Option (List Char) :=
  match digits12Sep (· == '月') cs with
  | some (mon, rest) =>
    match digits12Sep (· == '日') rest with
    | some (dayd, _) => some (mon ++ dayd)
    | none => none
  | none => none

/-- The three alternatives of the date regex tried in order at one position. -/
def tryAlts (cs : List Char) : Option (List Char) :=
  match matchFullDate cs with
  | some r => some r
  | none =>
    match matchMMDD cs with
    | some r => some r
    | none => matchCNDate cs

/-- `re.search` over the date regex: the match at the leftmost position
where any alternative succeeds. -/
def searchDate : List Char → Option (List Char)
  | [] => none
  | c :: rest =>
    match tryAlts (c :: rest) with
    | some r => some r
    | none => searchDate rest

/-- `normalize_date_key` on a character list: strip, search the date regex,
fall back to the first whitespace-delimited token. -/
def normalizeDateKeyL (left : List Char) : List Char :=
  let l := stripChars left
  if l = [] then l
  else
    match searchDate l with
    | some r => r
    | none => l.takeWhile (fun c => !isPySpace c)

/-- `normalize_date_key` of `build_continuous_periods`. -/
def normalize_date_key (left : String) : String :=
  String.mk (normalizeDateKeyL left.data)

/-- The per-line work of `build_continuous_periods`: skip empty lines and
(`include_morning=False`) morning lines, run `time_re`, extract the date key
and the start minute. -/
def parseSlotLine (includeMorning : Bool) (line : String) : Option (String × Nat) :=
  if line = "" then none
  else if !includeMorning && containsSub "上午".data line.data then none
  else
    match timeReSearch line.data with
    | none => none
    | some (left, startMin) => some (normalize_date_key (String.mk left), startMin)

/-- `pools.setdefault(date_key, set()).add(start_min)`: update the entry of
an existing key in place, append a new key at the end (Python dicts keep
insertion order). -/
def poolAdd (d : String) (n : Nat) : List (String × Finset ℕ) → List (String × Finset ℕ)
  | [] => [(d, {n})]
  | (k, s) :: rest =>
    if k = d then (k, insert n s) :: rest else (k, s) :: poolAdd d n rest

/-- One iteration of the parsing loop of `build_continuous_periods`. -/
def poolStep (includeMorning : Bool) (acc : List (String × Finset ℕ)) (line : String) :
    List (String × Finset ℕ) :=
  match parseSlotLine includeMorning line with
  | some (d, n) => poolAdd d n acc
  | none => acc

/-- The `pools` dict of `build_continuous_periods` after the parsing loop. -/
def slotPools (includeMorning : Bool) (lines : List String) : List (String × Finset ℕ) :=
  lines.foldl (poolStep includeMorning) []

/-- Python `f"{n:02d}"` for the non-negative values that occur here. -/
def pad2 (n : Nat) : String := if n < 10 then "0" ++ toString n else toString n

/-- The f-string `f"{date_key} | 连续空余 {st_h:02d}:{st_m:02d}-{en_h:02d}:{en_m:02d} ({hours}小时)"`. -/
def fmtPeriod (dateKey : String) (startMin endMin hours : Nat) : String :=
  dateKey ++ " | 连续空余 " ++ pad2 (startMin / 60) ++ ":" ++ pad2 (startMin % 60) ++
    "-" ++ pad2 (endMin / 60) ++ ":" ++ pad2 (endMin % 60) ++
    " (" ++ toString hours ++ "小时)"

/-- The run-detection loop of `build_continuous_periods` over the sorted
start minutes of one date: extend the current run on `prev + 60`, otherwise
emit it when it reaches `LEAST_TIME_LENGTH` (`least`) and restart; the final
run is flushed at the end. -/
def runLoop (least : Nat) (dateKey : String) (curStart curPrev curLen : Nat) :
    List Nat → List String
  | [] =>
    if least ≤ curLen then [fmtPeriod dateKey curStart (curPrev + 60) curLen] else []
  | s :: rest =>
    if s = curPrev + 60 then runLoop least dateKey curStart s (curLen + 1) rest
    else
      (if least ≤ curLen then [fmtPeriod dateKey curStart (curPrev + 60) curLen] else []) ++
        runLoop least dateKey s s 1 rest

/-- One date's contribution: seed the loop with the first sorted start. -/
def emitRuns (least : Nat) (dateKey : String) : List Nat → List String
  | [] => []
  | a :: rest => runLoop least dateKey a a 1 rest

/-- `build_continuous_periods(lines, include_morning)` with the global
`LEAST_TIME_LENGTH` made explicit as `least`. -/
def build_continuous_periods (least : Nat) (includeMorning : Bool)
    (lines : List String) : List String :=
  (slotPools includeMorning lines).flatMap fun p =>
    emitRuns least p.1 (p.2.sort (· ≤ ·))

/-- The merge/bypass branch of `main`: filter morning lines, then either
merge (`LEAST_TIME_LENGTH >= 2`) or pass the filtered lines through. -/
def mainCandidates (least : Nat) (includeMorning : Bool) (lines : List String) :
    List String :=
  let filtered := lines.filter fun ln => includeMorning || !containsSub "上午".data ln.data
  if 2 ≤ least then build_continuous_periods least includeMorning filtered else filtered

/-- `get_check_days_count` (identical in both script variants), as a function
of the current Asia/Shanghai wall-clock hour. -/
def get_check_days_count (hour : Nat) : Nat :=
  if hour < 18 then 3 else 4

/-- `check_time_availability`, as a function of the current Asia/Shanghai
wall-clock hour and the configured window bounds. -/
def check_time_availability (beginHour endHour hour : Nat) : Bool :=
  if beginHour ≤ hour ∧ hour < endHour then true else false

/-- One value of the persisted memory dict: `{count: ..., last_seen: ...}`. -/
structure MemEntry where
  count : Int
  lastSeen : String
deriving DecidableEq, Repr

/-- The persisted memory dict, in insertion order. -/
abbrev Memory := List (String × MemEntry)

/-- Python `dict.get` on the memory dict. -/
def lookupMem : Memory → String → Option MemEntry
  | [], _ => none
  | (k, v) :: rest, s => if k = s then some v else lookupMem rest s

/-- Python `dict[key] = value`: overwrite in place, append new keys. -/
def insertMem (s : String) (e : MemEntry) : Memory → Memory
  | [] => [(s, e)]
  | (k, v) :: rest =>
    if k = s then (k, e) :: rest else (k, v) :: insertMem s e rest

/-- The count computed for one candidate: the stored count plus one when the
entry exists and was last seen today, else 1. -/
def newCount (today : String) (mem : Memory) (slotId : String) : Int :=
  match lookupMem mem slotId with
  | some e => if e.lastSeen = today then e.count + 1 else 1
  | none => 1

/-- The per-candidate loop of `filter_messages_by_memory`: strip, skip
blanks, bump the same-day count (else reset to 1), store `{count, today}`,
and notify when `count <= threshold`. -/
def processMessages (today : String) (threshold : Int) (mem : Memory) :
    List String → List String × Memory
  | [] => ([], mem)
  | m :: rest =>
    let slotId := pyStrip m
    if slotId = "" then processMessages today threshold mem rest
    else
      let count := newCount today mem slotId
      let next := processMessages today threshold (insertMem slotId ⟨count, today⟩ mem) rest
      (if count ≤ threshold then slotId :: next.1 else next.1, next.2)

/-- `filter_messages_by_memory` over an already-loaded memory: the candidate
loop followed by the prune of entries whose `last_seen` is not today. -/
def filter_messages_by_memory (today : String) (threshold : Int) (mem : Memory)
    (messages : List String) : List String × Memory :=
  let r := processMessages today threshold mem messages
  (r.1, r.2.filter fun p => p.2.lastSeen == today)

/-- Outcome of reading the memory file in `load_memory`. -/
inductive StoreRead where
  | absent
  | unreadable
  | notDict
  | stored (mem : Memory)
deriving Repr

/-- `load_memory`: a missing, unreadable or non-dict file yields `{}`. -/
def load_memory : StoreRead → Memory
  | .stored mem => mem
  | _ => []

/-- Whether the read outcome is one of the failure cases. -/
def StoreRead.isFailure : StoreRead → Bool
  | .stored _ => false
  | _ => true

/-- The full `filter_messages_by_memory` call as invoked by `main`: load the
memory (failures yield `{}`), classify, and attempt the save.  `save_memory`
and the surrounding `try` swallow every write error, so the returned value
does not depend on `writeOk`. -/
def classify (read : StoreRead) (writeOk : Bool) (today : String) (threshold : Int)
    (messages : List String) : List String × Memory :=
  filter_messages_by_memory today threshold (load_memory read) messages

/-- The same-day count a stored signature currently carries (0 when absent
or stale); this is the quantity the candidate loop increments. -/
def effCount (today : String) (mem : Memory) (s : String) : Int :=
  match lookupMem mem s with
  | some e => if e.lastSeen = today then e.count else 0
  | none => 0

/-- How many candidates of a call carry the signature `s` (candidates are
compared after stripping, as the loop does). -/
def occCount (s : String) (messages : List String) : Nat :=
  messages.countP fun m => pyStrip m == s

/-- The start minutes of a contiguous hourly run of length `r` beginning at
minute `a`: `a, a + 60, …, a + 60 * (r - 1)`. -/
def runList (a r : Nat) : List Nat :=
  (List.range r).map (fun i => a + 60 * i)

/-! ### Lemmas about the continuous-period merge -/

theorem runLoop_nil (least : Nat) (d : String) (cs prev len : Nat) :
    runLoop least d cs prev len [] =
      if least ≤ len then [fmtPeriod d cs (prev + 60) len] else [] := rfl

theorem runLoop_cons (least : Nat) (d : String) (cs prev len s : Nat) (rest : List Nat) :
    runLoop least d cs prev len (s :: rest) =
      if s = prev + 60 then runLoop least d cs s (len + 1) rest
      else
        (if least ≤ len then [fmtPeriod d cs (prev + 60) len] else []) ++
          runLoop least d s s 1 rest := rfl

theorem runList_succ (a r : Nat) : runList a (r + 1) = a :: runList (a + 60) r := by
  simp only [runList, List.range_succ_eq_map, List.map_cons, List.map_map, Nat.mul_zero,
    Nat.add_zero]
  exact congrArg (List.cons a)
    (List.map_congr_left fun i _ => by
      simp only [Function.comp_apply]
      omega)

theorem runList_sorted (a r : Nat) : List.Sorted (· ≤ ·) (runList a r) := by
  unfold runList
  show List.Pairwise _ _
  rw [List.pairwise_map]
  exact (List.pairwise_lt_range r).imp (by intro i j h; omega)

theorem runList_nodup (a r : Nat) : (runList a r).Nodup := by
  unfold runList
  exact (List.nodup_range r).map (fun i j h => by omega)

theorem sort_runList (a r : Nat) :
    Finset.sort (· ≤ ·) (runList a r).toFinset = runList a r :=
  (List.toFinset_sort (· ≤ ·) (runList_nodup a r)).mpr (runList_sorted a r)

/-- Feeding the run loop a fully contiguous tail extends the current run to
its end and emits exactly the one period (when long enough). -/
theorem runLoop_contig (least : Nat) (d : String) (cs : Nat) :
    ∀ (q prev len : Nat),
      runLoop least d cs prev len (runList (prev + 60) q) =
        if least ≤ len + q then [fmtPeriod d cs (prev + 60 * q + 60) (len + q)] else [] := by
  intro q
  induction q with
  | zero =>
    intro prev len
    simp [runList, runLoop_nil]
  | succ q ihq =>
    intro prev len
    rw [runList_succ, runLoop_cons, if_pos rfl, ihq (prev + 60) (len + 1)]
    simp only [show len + 1 + q = len + (q + 1) from by omega,
      show prev + 60 + 60 * q + 60 = prev + 60 * (q + 1) + 60 from by omega]

/-- C1: when the parsed slots of the input form exactly one date key whose
distinct start minutes are a single contiguous hourly run of length `r`,
the merge emits exactly the one formatted period of `r` hours ending one
hour after the last start when `r ≥ least`, and nothing otherwise. -/
theorem c1_merge_single_run (least : Nat) (includeMorning : Bool) (lines : List String)
    (d : String) (a r : Nat) (hr : 1 ≤ r)
    (hpools : slotPools includeMorning lines = [(d, (runList a r).toFinset)]) :
    build_continuous_periods least includeMorning lines =
      if least ≤ r then [fmtPeriod d a (a + 60 * r) r] else [] := by
  unfold build_continuous_periods
  rw [hpools]
  simp only [List.flatMap_cons, List.flatMap_nil, List.append_nil]
  rw [sort_runList]
  obtain ⟨q, rfl⟩ : ∃ q, r = q + 1 := ⟨r - 1, by omega⟩
  rw [runList_succ]
  show runLoop least d a a 1 (runList (a + 60) q) = _
  rw [runLoop_contig least d a q a 1]
  simp only [show 1 + q = q + 1 from by omega,
    show a + 60 * q + 60 = a + 60 * (q + 1) from by omega]

/-- Concrete instance of C1: two adjacent hour slots on 12-02 with a
threshold of 2 merge into the single period 08:00–10:00. -/
theorem c1_merge_single_run_witness :
    (1 ≤ 2 ∧
     slotPools false
        ["12-02 周二 | A (08:00-09:00)", "12-02 周二 | B (09:00-10:00)"] =
       [("12-02", (runList 480 2).toFinset)]) ∧
    build_continuous_periods 2 false
        ["12-02 周二 | A (08:00-09:00)", "12-02 周二 | B (09:00-10:00)"] =
      ["12-02 | 连续空余 08:00-10:00 (2小时)"] := by
  refine ⟨⟨by decide, by decide⟩, ?_⟩
  rw [c1_merge_single_run 2 false _ "12-02" 480 2 (by decide) (by decide)]
  decide

/-! ### Order and repetition insensitivity of the merge -/

/-- Python `dict` lookup on the pools association list. -/
def lookupPool : List (String × Finset ℕ) → String → Option (Finset ℕ)
  | [], _ => none
  | (k, s) :: rest, d => if k = d then some s else lookupPool rest d

/-- The keys of the pools dict, in insertion order. -/
def poolKeys (P : List (String × Finset ℕ)) : List String :=
  P.map Prod.fst

/-- The set of start minutes the parsing loop collects for one date key. -/
def startsIn (includeMorning : Bool) (lines : List String) (d : String) : Finset ℕ :=
  (((lines.filterMap (parseSlotLine includeMorning)).filter
      (fun p => p.1 == d)).map Prod.snd).toFinset

/-- Combining an already-present pool entry with the starts still to come. -/
def mergeOpt : Option (Finset ℕ) → Finset ℕ → Option (Finset ℕ)
  | some t, s => some (t ∪ s)
  | none, s => if s = ∅ then none else some s

theorem lookupPool_nil (d : String) : lookupPool [] d = none := rfl

theorem lookupPool_cons (k : String) (s : Finset ℕ) (rest : List (String × Finset ℕ))
    (d : String) :
    lookupPool ((k, s) :: rest) d = if k = d then some s else lookupPool rest d := rfl

theorem poolAdd_nil (d : String) (n : Nat) : poolAdd d n [] = [(d, {n})] := rfl

theorem poolAdd_cons (d : String) (n : Nat) (k : String) (s : Finset ℕ)
    (rest : List (String × Finset ℕ)) :
    poolAdd d n ((k, s) :: rest) =
      if k = d then (k, insert n s) :: rest else (k, s) :: poolAdd d n rest := rfl

theorem lookupPool_poolAdd (d' : String) (n : Nat) (P : List (String × Finset ℕ))
    (d : String) :
    lookupPool (poolAdd d' n P) d =
      if d = d' then some (insert n ((lookupPool P d).getD ∅)) else lookupPool P d := by
  induction P with
  | nil =>
    by_cases h : d = d'
    · subst h
      rw [poolAdd_nil, lookupPool_cons, if_pos rfl, if_pos rfl, lookupPool_nil]
      simp
    · rw [poolAdd_nil, lookupPool_cons, if_neg (fun hx => h hx.symm), if_neg h,
        lookupPool_nil]
  | cons kv rest ih =>
    obtain ⟨k, s⟩ := kv
    rw [poolAdd_cons]
    by_cases hk : k = d'
    · rw [if_pos hk]
      by_cases hd : k = d
      · subst hd
        rw [lookupPool_cons, if_pos rfl, lookupPool_cons, if_pos rfl, if_pos (hk ▸ rfl)]
        simp
      · rw [lookupPool_cons, if_neg hd, lookupPool_cons, if_neg hd]
        by_cases hdd : d = d'
        · exact absurd (hk.trans hdd.symm) hd
        · rw [if_neg hdd]
    · rw [if_neg hk]
      by_cases hd : k = d
      · subst hd
        rw [lookupPool_cons, if_pos rfl, lookupPool_cons, if_pos rfl]
        have hdd : ¬k = d' := hk
        rw [if_neg (fun hx => hdd hx)]
      · rw [lookupPool_cons, if_neg hd, lookupPool_cons, if_neg hd, ih]

theorem mem_poolKeys_poolAdd (d' : String) (n : Nat) (P : List (String × Finset ℕ))
    (x : String) :
    x ∈ poolKeys (poolAdd d' n P) ↔ x ∈ poolKeys P ∨ x = d' := by
  induction P with
  | nil =>
    rw [poolAdd_nil]
    simp [poolKeys]
  | cons kv rest ih =>
    obtain ⟨k, s⟩ := kv
    rw [poolAdd_cons]
    by_cases hk : k = d'
    · subst hk
      rw [if_pos rfl]
      simp only [poolKeys, List.map_cons, List.mem_cons]
      tauto
    · rw [if_neg hk]
      simp only [poolKeys, List.map_cons, List.mem_cons] at ih ⊢
      rw [ih]
      tauto

theorem poolKeys_nodup_poolAdd (d' : String) (n : Nat) (P : List (String × Finset ℕ))
    (h : (poolKeys P).Nodup) : (poolKeys (poolAdd d' n P)).Nodup := by
  induction P with
  | nil =>
    rw [poolAdd_nil]
    simp [poolKeys]
  | cons kv rest ih =>
    obtain ⟨k, s⟩ := kv
    simp only [poolKeys, List.map_cons, List.nodup_cons] at h
    rw [poolAdd_cons]
    by_cases hk : k = d'
    · rw [if_pos hk]
      simp only [poolKeys, List.map_cons, List.nodup_cons]
      exact h
    · rw [if_neg hk]
      simp only [poolKeys, List.map_cons, List.nodup_cons]
      refine ⟨?_, ih h.2⟩
      intro hx
      rcases (mem_poolKeys_poolAdd d' n rest k).mp hx with hx' | hx'
      · exact h.1 hx'
      · exact hk hx'

theorem mem_iff_lookupPool (P : List (String × Finset ℕ)) (hn : (poolKeys P).Nodup)
    (d : String) (S : Finset ℕ) :
    (d, S) ∈ P ↔ lookupPool P d = some S := by
  induction P with
  | nil => simp [lookupPool_nil]
  | cons kv rest ih =>
    obtain ⟨k, s⟩ := kv
    simp only [poolKeys, List.map_cons, List.nodup_cons] at hn
    rw [lookupPool_cons, List.mem_cons]
    by_cases hk : k = d
    · subst hk
      rw [if_pos rfl]
      constructor
      · rintro (h | h)
        · injection h with h1 h2
          rw [h2]
        · exact absurd (List.mem_map_of_mem Prod.fst h) hn.1
      · intro h
        injection h with h1
        exact .inl (by rw [h1])
    · rw [if_neg hk, ← ih hn.2]
      constructor
      · rintro (h | h)
        · injection h with h1 h2
          exact absurd h1.symm hk
        · exact h
      · exact fun h => .inr h

theorem startsIn_nil (includeMorning : Bool) (d : String) :
    startsIn includeMorning [] d = ∅ := rfl

theorem startsIn_cons_none (includeMorning : Bool) (line : String) (rest : List String)
    (d : String) (h : parseSlotLine includeMorning line = none) :
    startsIn includeMorning (line :: rest) d = startsIn includeMorning rest d := by
  simp [startsIn, List.filterMap_cons, h]

theorem startsIn_cons_some (includeMorning : Bool) (line : String) (rest : List String)
    (d d' : String) (n : Nat) (h : parseSlotLine includeMorning line = some (d', n)) :
    startsIn includeMorning (line :: rest) d =
      if d' = d then insert n (startsIn includeMorning rest d)
      else startsIn includeMorning rest d := by
  by_cases hd : d' = d
  · rw [if_pos hd]
    simp [startsIn, List.filterMap_cons, h, List.filter_cons, hd]
  · rw [if_neg hd]
    simp [startsIn, List.filterMap_cons, h, List.filter_cons, hd]

theorem poolStep_none (includeMorning : Bool) (acc : List (String × Finset ℕ))
    (line : String) (h : parseSlotLine includeMorning line = none) :
    poolStep includeMorning acc line = acc := by
  simp [poolStep, h]

theorem poolStep_some (includeMorning : Bool) (acc : List (String × Finset ℕ))
    (line : String) (d : String) (n : Nat)
    (h : parseSlotLine includeMorning line = some (d, n)) :
    poolStep includeMorning acc line = poolAdd d n acc := by
  simp [poolStep, h]

theorem lookupPool_foldl (includeMorning : Bool) :
    ∀ (lines : List String) (acc : List (String × Finset ℕ)) (d : String),
      lookupPool (lines.foldl (poolStep includeMorning) acc) d =
        mergeOpt (lookupPool acc d) (startsIn includeMorning lines d) := by
  intro lines
  induction lines with
  | nil =>
    intro acc d
    rw [List.foldl_nil, startsIn_nil]
    cases h : lookupPool acc d
    · simp [mergeOpt]
    · simp [mergeOpt]
  | cons line rest ih =>
    intro acc d
    rw [List.foldl_cons]
    cases hp : parseSlotLine includeMorning line with
    | none =>
      rw [poolStep_none includeMorning acc line hp,
        startsIn_cons_none includeMorning line rest d hp]
      exact ih acc d
    | some p =>
      obtain ⟨d', n⟩ := p
      rw [poolStep_some includeMorning acc line d' n hp,
        startsIn_cons_some includeMorning line rest d d' n hp, ih (poolAdd d' n acc) d,
        lookupPool_poolAdd]
      by_cases hd : d = d'
      · rw [if_pos hd, if_pos (hd ▸ rfl : d' = d)]
        cases h : lookupPool acc d
        · simp only [mergeOpt, Option.getD_none]
          rw [if_neg (Finset.insert_ne_empty n (startsIn includeMorning rest d))]
          rw [Finset.insert_union, Finset.empty_union]
        · simp only [mergeOpt, Option.getD_some]
          rw [Finset.insert_union, Finset.union_insert]
      · rw [if_neg hd, if_neg (fun hx => hd hx.symm)]

theorem slotPools_keys_nodup (includeMorning : Bool) (lines : List String) :
    (poolKeys (slotPools includeMorning lines)).Nodup := by
  have aux : ∀ (ls : List String) (acc : List (String × Finset ℕ)),
      (poolKeys acc).Nodup →
      (poolKeys (ls.foldl (poolStep includeMorning) acc)).Nodup := by
    intro ls
    induction ls with
    | nil =>
      intro acc h
      simpa using h
    | cons line rest ih =>
      intro acc h
      rw [List.foldl_cons]
      cases hp : parseSlotLine includeMorning line with
      | none =>
        rw [poolStep_none includeMorning acc line hp]
        exact ih acc h
      | some p =>
        obtain ⟨d', n⟩ := p
        rw [poolStep_some includeMorning acc line d' n hp]
        exact ih _ (poolKeys_nodup_poolAdd d' n acc h)
  exact aux lines [] (by simp [poolKeys])

theorem lookupPool_slotPools (includeMorning : Bool) (lines : List String) (d : String) :
    lookupPool (slotPools includeMorning lines) d =
      (if startsIn includeMorning lines d = ∅ then none
       else some (startsIn includeMorning lines d)) := by
  rw [slotPools, lookupPool_foldl]
  rfl

/-- Membership in the merge output depends only on the per-date start sets. -/
theorem mem_build_continuous_periods (least : Nat) (includeMorning : Bool)
    (lines : List String) (x : String) :
    x ∈ build_continuous_periods least includeMorning lines ↔
      ∃ d, startsIn includeMorning lines d ≠ ∅ ∧
        x ∈ emitRuns least d (Finset.sort (· ≤ ·) (startsIn includeMorning lines d)) := by
  unfold build_continuous_periods
  rw [List.mem_flatMap]
  constructor
  · rintro ⟨⟨d, S⟩, hmem, hx⟩
    have hlk := (mem_iff_lookupPool _ (slotPools_keys_nodup includeMorning lines) d S).mp hmem
    rw [lookupPool_slotPools] at hlk
    by_cases he : startsIn includeMorning lines d = ∅
    · rw [if_pos he] at hlk
      cases hlk
    · rw [if_neg he] at hlk
      injection hlk with hlk'
      subst hlk'
      exact ⟨d, he, hx⟩
  · rintro ⟨d, hne, hx⟩
    refine ⟨(d, startsIn includeMorning lines d), ?_, hx⟩
    rw [mem_iff_lookupPool _ (slotPools_keys_nodup includeMorning lines),
      lookupPool_slotPools, if_neg hne]

theorem perm_toFinset_eq {α : Type} [DecidableEq α] {l₁ l₂ : List α} (h : l₁.Perm l₂) :
    l₁.toFinset = l₂.toFinset := by
  ext a
  simp [List.mem_toFinset, h.mem_iff]

theorem startsIn_perm (includeMorning : Bool) {l₁ l₂ : List String} (h : l₁.Perm l₂)
    (d : String) : startsIn includeMorning l₁ d = startsIn includeMorning l₂ d := by
  unfold startsIn
  exact perm_toFinset_eq (((h.filterMap _).filter _).map _)

theorem startsIn_append_self (includeMorning : Bool) (l : List String) (d : String) :
    startsIn includeMorning (l ++ l) d = startsIn includeMorning l d := by
  unfold startsIn
  rw [List.filterMap_append, List.filter_append, List.map_append, List.toFinset_append,
    Finset.union_self]

/-- C7: the merge output, as a set of strings, is unchanged by permuting the
input lines (duplicates included) and by repeating the whole input; running
it twice on the same input trivially yields the same output. -/
theorem c7_merge_set_invariance (least : Nat) (includeMorning : Bool)
    (l₁ l₂ : List String) (h : l₁.Perm l₂) :
    (build_continuous_periods least includeMorning l₁).toFinset =
      (build_continuous_periods least includeMorning l₂).toFinset ∧
    (build_continuous_periods least includeMorning (l₁ ++ l₁)).toFinset =
      (build_continuous_periods least includeMorning l₁).toFinset := by
  constructor
  · ext x
    simp only [List.mem_toFinset, mem_build_continuous_periods]
    have he : ∀ d, startsIn includeMorning l₁ d = startsIn includeMorning l₂ d :=
      startsIn_perm includeMorning h
    simp only [he]
  · ext x
    simp only [List.mem_toFinset, mem_build_continuous_periods]
    have he : ∀ d, startsIn includeMorning (l₁ ++ l₁) d = startsIn includeMorning l₁ d :=
      startsIn_append_self includeMorning l₁
    simp only [he]

/-- Concrete instance of C7: swapping two slot lines leaves the merged set
unchanged. -/
theorem c7_merge_set_invariance_witness :
    (["12-02 周二 | A (08:00-09:00)", "12-03 周三 | B (09:00-10:00)"] : List String).Perm
      ["12-03 周三 | B (09:00-10:00)", "12-02 周二 | A (08:00-09:00)"] ∧
    ((build_continuous_periods 1 false
        ["12-02 周二 | A (08:00-09:00)", "12-03 周三 | B (09:00-10:00)"]).toFinset =
      (build_continuous_periods 1 false
        ["12-03 周三 | B (09:00-10:00)", "12-02 周二 | A (08:00-09:00)"]).toFinset ∧
     (build_continuous_periods 1 false
        (["12-02 周二 | A (08:00-09:00)", "12-03 周三 | B (09:00-10:00)"] ++
          ["12-02 周二 | A (08:00-09:00)", "12-03 周三 | B (09:00-10:00)"])).toFinset =
      (build_continuous_periods 1 false
        ["12-02 周二 | A (08:00-09:00)", "12-03 周三 | B (09:00-10:00)"]).toFinset) :=
  ⟨List.Perm.swap "12-03 周三 | B (09:00-10:00)" "12-02 周二 | A (08:00-09:00)" [],
   c7_merge_set_invariance 1 false
     ["12-02 周二 | A (08:00-09:00)", "12-03 周三 | B (09:00-10:00)"]
     ["12-03 周三 | B (09:00-10:00)", "12-02 周二 | A (08:00-09:00)"]
     (List.Perm.swap "12-03 周三 | B (09:00-10:00)" "12-02 周二 | A (08:00-09:00)" [])⟩

/-! ### The date-key extraction of `normalize_date_key` -/

theorem tryAlts_nil : tryAlts [] = none := rfl

theorem searchDate_nil : searchDate [] = none := rfl

theorem searchDate_cons (c : Char) (rest : List Char) :
    searchDate (c :: rest) =
      (match tryAlts (c :: rest) with
       | some r => some r
       | none => searchDate rest) := rfl

theorem searchDate_eq_none (cs : List Char) (h : searchDate cs = none) :
    ∀ j, tryAlts (cs.drop j) = none := by
  induction cs with
  | nil =>
    intro j
    rw [List.drop_nil]
    exact tryAlts_nil
  | cons c rest ih =>
    intro j
    rw [searchDate_cons] at h
    cases ht : tryAlts (c :: rest) with
    | some r =>
      rw [ht] at h
      cases h
    | none =>
      rw [ht] at h
      cases j with
      | zero => simpa using ht
      | succ j =>
        rw [List.drop_succ_cons]
        exact ih h j

theorem searchDate_eq_some (cs : List Char) (r : List Char) (h : searchDate cs = some r) :
    ∃ i, tryAlts (cs.drop i) = some r ∧ ∀ j < i, tryAlts (cs.drop j) = none := by
  induction cs with
  | nil =>
    rw [searchDate_nil] at h
    cases h
  | cons c rest ih =>
    rw [searchDate_cons] at h
    cases ht : tryAlts (c :: rest) with
    | some r' =>
      rw [ht] at h
      injection h with h'
      subst h'
      exact ⟨0, by simpa using ht, fun j hj => absurd hj (Nat.not_lt_zero j)⟩
    | none =>
      rw [ht] at h
      obtain ⟨i, hi, hj⟩ := ih h
      refine ⟨i + 1, by rw [List.drop_succ_cons]; exact hi, ?_⟩
      intro j hjlt
      cases j with
      | zero => simpa using ht
      | succ j =>
        rw [List.drop_succ_cons]
        exact hj j (Nat.lt_of_succ_lt_succ hjlt)

theorem normalizeDateKeyL_eq (left : List Char) :
    normalizeDateKeyL left =
      (if stripChars left = [] then stripChars left
       else
         match searchDate (stripChars left) with
         | some r => r
         | none => (stripChars left).takeWhile (fun c => !isPySpace c)) := rfl

/-- C8 fails as stated: the label `"12-02 2025-01-01"` contains a full
`YYYY-MM-DD` date, yet the extracted key is the earlier `MM-DD` token —
`re.search` is leftmost-first, not pattern-priority-first. -/
theorem c8_counterexample :
    normalize_date_key "12-02 2025-01-01" = "12-02" ∧
    ("12-02" : String) ≠ "2025-01-01" ∧
    matchFullDate ("2025-01-01".data) = some ("2025-01-01".data) ∧
    containsSub ("2025-01-01".data) ("12-02 2025-01-01".data) = true :=
  ⟨by decide, by decide, by decide, by decide⟩

/-- C8 (amended): on a label whose strip is non-empty, the date key is the
match of the combined date regex at the leftmost position where any
alternative succeeds — alternatives tried in the fixed order full date,
then `MM-DD`, then the localized month-day — and only when no position
matches does it fall back to the first whitespace-delimited token. -/
theorem c8_leftmost_priority_amended (left : String) (h : pyStrip left ≠ "") :
    (∃ i r, tryAlts ((pyStrip left).data.drop i) = some r ∧
        (∀ j < i, tryAlts ((pyStrip left).data.drop j) = none) ∧
        normalize_date_key left = String.mk r) ∨
    ((∀ j, tryAlts ((pyStrip left).data.drop j) = none) ∧
     normalize_date_key left =
       String.mk ((pyStrip left).data.takeWhile (fun c => !isPySpace c))) := by
  have hl : stripChars left.data ≠ [] := by
    intro hl
    apply h
    rw [pyStrip, hl]
  have hdata : (pyStrip left).data = stripChars left.data := rfl
  rw [hdata]
  unfold normalize_date_key
  rw [normalizeDateKeyL_eq, if_neg hl]
  cases hs : searchDate (stripChars left.data) with
  | some r =>
    left
    obtain ⟨i, hi, hj⟩ := searchDate_eq_some _ r hs
    exact ⟨i, r, hi, hj, rfl⟩
  | none =>
    right
    exact ⟨searchDate_eq_none _ hs, rfl⟩

/-- Concrete instance of the amended C8: in `"12-02 周二"` the combined
regex first matches at position 0 with `"12-02"`. -/
theorem c8_leftmost_priority_amended_witness :
    pyStrip "12-02 周二" ≠ "" ∧
    ((∃ i r, tryAlts ((pyStrip "12-02 周二").data.drop i) = some r ∧
        (∀ j < i, tryAlts ((pyStrip "12-02 周二").data.drop j) = none) ∧
        normalize_date_key "12-02 周二" = String.mk r) ∨
     ((∀ j, tryAlts ((pyStrip "12-02 周二").data.drop j) = none) ∧
      normalize_date_key "12-02 周二" =
        String.mk ((pyStrip "12-02 周二").data.takeWhile (fun c => !isPySpace c)))) :=
  ⟨by decide, c8_leftmost_priority_amended "12-02 周二" (by decide)⟩

/-! ### Lemmas about the notification memory -/

theorem lookupMem_insertMem_self (s : String) (e : MemEntry) (mem : Memory) :
    lookupMem (insertMem s e mem) s = some e := by
  induction mem with
  | nil => simp [insertMem, lookupMem]
  | cons kv rest ih =>
    obtain ⟨k, v⟩ := kv
    by_cases h : k = s
    · simp [insertMem, lookupMem, h]
    · simp [insertMem, lookupMem, h, ih]

theorem lookupMem_insertMem_ne (s u : String) (hne : u ≠ s) (e : MemEntry) (mem : Memory) :
    lookupMem (insertMem s e mem) u = lookupMem mem u := by
  have hsu : s ≠ u := fun h => hne h.symm
  induction mem with
  | nil => simp [insertMem, lookupMem, hsu]
  | cons kv rest ih =>
    obtain ⟨k, v⟩ := kv
    by_cases h : k = s
    · subst h
      simp [insertMem, lookupMem, hsu]
    · simp only [insertMem, if_neg h, lookupMem]
      by_cases h2 : k = u <;> simp [h2, ih]

theorem newCount_eq (today : String) (mem : Memory) (sid : String) :
    newCount today mem sid = effCount today mem sid + 1 := by
  unfold newCount effCount
  cases lookupMem mem sid with
  | none => simp
  | some e =>
    by_cases h : e.lastSeen = today <;> simp [h]

theorem effCount_insertMem_self (today : String) (mem : Memory) (s : String) (c : Int) :
    effCount today (insertMem s ⟨c, today⟩ mem) s = c := by
  unfold effCount
  rw [lookupMem_insertMem_self]
  simp

theorem effCount_insertMem_ne (today : String) (mem : Memory) (s u : String)
    (hne : u ≠ s) (e : MemEntry) :
    effCount today (insertMem s e mem) u = effCount today mem u := by
  unfold effCount
  rw [lookupMem_insertMem_ne s u hne]

theorem lookupMem_filter_today (today : String) (mem : Memory) (s : String) (v : MemEntry)
    (h : lookupMem mem s = some v) (hv : v.lastSeen = today) :
    lookupMem (mem.filter fun p => p.2.lastSeen == today) s = some v := by
  induction mem with
  | nil => simp [lookupMem] at h
  | cons kv rest ih =>
    obtain ⟨k, w⟩ := kv
    by_cases hk : k = s
    · subst hk
      simp only [lookupMem, if_pos rfl] at h
      cases h
      simp [List.filter_cons, hv, lookupMem]
    · simp only [lookupMem, if_neg hk] at h
      by_cases hw : w.lastSeen = today
      · simp [List.filter_cons, hw, lookupMem, hk, ih h]
      · simp [List.filter_cons, hw, ih h]

theorem processMessages_nil (today : String) (t : Int) (mem : Memory) :
    processMessages today t mem [] = ([], mem) := rfl

theorem processMessages_cons_blank (today : String) (t : Int) (mem : Memory)
    (m : String) (rest : List String) (h : pyStrip m = "") :
    processMessages today t mem (m :: rest) = processMessages today t mem rest := by
  simp [processMessages, h]

theorem processMessages_cons (today : String) (t : Int) (mem : Memory)
    (m : String) (rest : List String) (h : ¬pyStrip m = "") :
    processMessages today t mem (m :: rest) =
      (if newCount today mem (pyStrip m) ≤ t then
          pyStrip m ::
            (processMessages today t
              (insertMem (pyStrip m) ⟨newCount today mem (pyStrip m), today⟩ mem) rest).1
        else
          (processMessages today t
            (insertMem (pyStrip m) ⟨newCount today mem (pyStrip m), today⟩ mem) rest).1,
       (processMessages today t
          (insertMem (pyStrip m) ⟨newCount today mem (pyStrip m), today⟩ mem) rest).2) := by
  simp [processMessages, h]

/-- The central per-signature accounting of the candidate loop: a signature
occurring `occCount s messages` times, starting from same-day count
`effCount today mem s`, is notified for exactly the occurrences that keep
the running count at or below the threshold, and ends stored with the
summed count. -/
theorem processMessages_key (today : String) (t : Int) (s : String) (hs : s ≠ "") :
    ∀ (messages : List String) (mem : Memory),
      List.count s (processMessages today t mem messages).1 =
        (min (t - effCount today mem s) (occCount s messages : Int)).toNat ∧
      lookupMem (processMessages today t mem messages).2 s =
        (if occCount s messages = 0 then lookupMem mem s
         else some ⟨effCount today mem s + (occCount s messages : Int), today⟩) := by
  intro messages
  induction messages with
  | nil =>
    intro mem
    refine ⟨?_, ?_⟩
    · simp only [processMessages_nil, occCount, List.countP_nil, List.count_nil]
      omega
    · simp [processMessages_nil, occCount]
  | cons m rest ih =>
    intro mem
    by_cases h0 : pyStrip m = ""
    · have hms : ¬(pyStrip m == s) = true := by
        simp only [beq_iff_eq, h0]
        exact fun h => hs h.symm
      have hocc : occCount s (m :: rest) = occCount s rest := by
        simp [occCount, List.countP_cons, hms]
      rw [processMessages_cons_blank today t mem m rest h0, hocc]
      exact ih mem
    · rw [processMessages_cons today t mem m rest h0]
      dsimp only
      by_cases h1 : pyStrip m = s
      · -- the candidate is the tracked signature
        rw [h1]
        have hms : (pyStrip m == s) = true := by simpa [beq_iff_eq] using h1
        have hocc : occCount s (m :: rest) = occCount s rest + 1 := by
          simp [occCount, List.countP_cons, hms]
        have hcnt : newCount today mem s = effCount today mem s + 1 :=
          newCount_eq today mem s
        have heff2 :
            effCount today (insertMem s ⟨newCount today mem s, today⟩ mem) s =
              newCount today mem s :=
          effCount_insertMem_self today mem s _
        obtain ⟨ihc, ihl⟩ := ih (insertMem s ⟨newCount today mem s, today⟩ mem)
        refine ⟨?_, ?_⟩
        · by_cases hle : newCount today mem s ≤ t
          · rw [if_pos hle, List.count_cons_self, ihc, heff2, hcnt, hocc]
            rw [hcnt] at hle
            push_cast
            omega
          · rw [if_neg hle, ihc, heff2, hcnt, hocc]
            rw [hcnt] at hle
            push_cast
            omega
        · rw [ihl, hocc, if_neg (Nat.succ_ne_zero _)]
          by_cases hz : occCount s rest = 0
          · rw [if_pos hz, hz, lookupMem_insertMem_self, hcnt]
            simp
          · rw [if_neg hz, heff2, hcnt]
            congr 1
            simp only [MemEntry.mk.injEq, and_true]
            push_cast
            ring
      · -- a different signature: its bookkeeping does not touch `s`
        have hms : ¬(pyStrip m == s) = true := by
          simp only [beq_iff_eq]
          exact h1
        have hocc : occCount s (m :: rest) = occCount s rest := by
          simp [occCount, List.countP_cons, hms]
        have hne : s ≠ pyStrip m := fun h => h1 h.symm
        have heff2 :
            effCount today (insertMem (pyStrip m)
              ⟨newCount today mem (pyStrip m), today⟩ mem) s =
              effCount today mem s :=
          effCount_insertMem_ne today mem (pyStrip m) s hne _
        have hlk2 :
            lookupMem (insertMem (pyStrip m)
              ⟨newCount today mem (pyStrip m), today⟩ mem) s = lookupMem mem s :=
          lookupMem_insertMem_ne (pyStrip m) s hne _ mem
        obtain ⟨ihc, ihl⟩ :=
          ih (insertMem (pyStrip m) ⟨newCount today mem (pyStrip m), today⟩ mem)
        refine ⟨?_, ?_⟩
        · by_cases hle : newCount today mem (pyStrip m) ≤ t
          · rw [if_pos hle, List.count_cons_of_ne hne, ihc, heff2, hocc]
          · rw [if_neg hle, ihc, heff2, hocc]
        · rw [ihl, hocc, heff2, hlk2]

/-- The notified list is a selection, in order, of the stripped non-blank
candidates. -/
theorem processMessages_sublist (today : String) (t : Int) :
    ∀ (messages : List String) (mem : Memory),
      (processMessages today t mem messages).1.Sublist
        (messages.filterMap fun m => if pyStrip m = "" then none else some (pyStrip m)) := by
  intro messages
  induction messages with
  | nil => intro mem; simp [processMessages_nil]
  | cons m rest ih =>
    intro mem
    by_cases h0 : pyStrip m = ""
    · rw [processMessages_cons_blank today t mem m rest h0]
      simpa [List.filterMap_cons, h0] using ih mem
    · rw [processMessages_cons today t mem m rest h0]
      simp only [List.filterMap_cons, if_neg h0]
      by_cases hle : newCount today mem (pyStrip m) ≤ t
      · rw [if_pos hle]
        exact (ih _).cons₂ _
      · rw [if_neg hle]
        exact (ih _).cons _

/-- With no stored same-day history for any candidate, distinct non-blank
candidates and a threshold of at least 1, every candidate is notified. -/
theorem processMessages_all_first_seen (today : String) (t : Int) (ht : 1 ≤ t) :
    ∀ (messages : List String) (mem : Memory),
      (∀ m ∈ messages, pyStrip m ≠ "") →
      (∀ m ∈ messages, effCount today mem (pyStrip m) = 0) →
      (messages.map pyStrip).Nodup →
      (processMessages today t mem messages).1 = messages.map pyStrip := by
  intro messages
  induction messages with
  | nil => intro mem _ _ _; simp [processMessages_nil]
  | cons m rest ih =>
    intro mem hblank heff hnodup
    have h0 : pyStrip m ≠ "" := hblank m (List.mem_cons_self m rest)
    have he : effCount today mem (pyStrip m) = 0 := heff m (List.mem_cons_self m rest)
    have hcnt : newCount today mem (pyStrip m) = 1 := by
      rw [newCount_eq, he]
      ring
    rw [processMessages_cons today t mem m rest h0, hcnt, if_pos ht]
    simp only [List.map_cons]
    simp only [List.map_cons, List.nodup_cons] at hnodup
    congr 1
    refine ih _ (fun m' hm' => hblank m' (List.mem_cons_of_mem m hm'))
      (fun m' hm' => ?_) hnodup.2
    have hne : pyStrip m' ≠ pyStrip m := by
      intro h
      exact hnodup.1 (h ▸ List.mem_map_of_mem pyStrip hm')
    rw [effCount_insertMem_ne today mem (pyStrip m) (pyStrip m') hne]
    exact heff m' (List.mem_cons_of_mem m hm')

theorem filter_messages_fst (today : String) (t : Int) (mem : Memory)
    (messages : List String) :
    (filter_messages_by_memory today t mem messages).1 =
      (processMessages today t mem messages).1 := rfl

theorem filter_messages_snd (today : String) (t : Int) (mem : Memory)
    (messages : List String) :
    (filter_messages_by_memory today t mem messages).2 =
      (processMessages today t mem messages).2.filter
        (fun p => p.2.lastSeen == today) := rfl

/-- One classification call hitting a signature exactly once: it is notified
iff the incremented same-day count stays at or below the threshold, and the
surviving stored count goes up by one. -/
theorem filter_step_once (today : String) (t : Int) (mem : Memory) (msgs : List String)
    (s : String) (hs : s ≠ "") (e : Int) (he : effCount today mem s = e)
    (hocc : occCount s msgs = 1) :
    List.count s (filter_messages_by_memory today t mem msgs).1 = (min (t - e) 1).toNat ∧
    effCount today (filter_messages_by_memory today t mem msgs).2 s = e + 1 ∧
    lookupMem (filter_messages_by_memory today t mem msgs).2 s = some ⟨e + 1, today⟩ := by
  obtain ⟨hc, hl⟩ := processMessages_key today t s hs msgs mem
  rw [he, hocc] at hc hl
  rw [if_neg (by omega : ¬(1 : Nat) = 0)] at hl
  have hl' : lookupMem (processMessages today t mem msgs).2 s = some ⟨e + 1, today⟩ := by
    rw [hl]
    norm_num
  have hpr :
      lookupMem (filter_messages_by_memory today t mem msgs).2 s = some ⟨e + 1, today⟩ := by
    rw [filter_messages_snd]
    exact lookupMem_filter_today today _ s ⟨e + 1, today⟩ hl' rfl
  refine ⟨?_, ?_, hpr⟩
  · rw [filter_messages_fst, hc]
    norm_num
  · unfold effCount
    rw [hpr]
    simp

/-! ### Claim theorems about the notification memory -/

/-- C2: with threshold 2, a signature presented once per call over three
consecutive same-day classification calls (each call persisting its updated
memory for the next) is notified on the first and second calls and
suppressed on the third. -/
theorem c2_suppression_threshold (today : String) (mem0 : Memory) (s : String)
    (msgs1 msgs2 msgs3 : List String)
    (hs : s ≠ "") (h0 : effCount today mem0 s = 0)
    (h1 : occCount s msgs1 = 1) (h2 : occCount s msgs2 = 1) (h3 : occCount s msgs3 = 1) :
    s ∈ (filter_messages_by_memory today 2 mem0 msgs1).1 ∧
    s ∈ (filter_messages_by_memory today 2
          (filter_messages_by_memory today 2 mem0 msgs1).2 msgs2).1 ∧
    s ∉ (filter_messages_by_memory today 2
          (filter_messages_by_memory today 2
            (filter_messages_by_memory today 2 mem0 msgs1).2 msgs2).2 msgs3).1 := by
  obtain ⟨c1, e1, -⟩ := filter_step_once today 2 mem0 msgs1 s hs 0 h0 h1
  obtain ⟨c2, e2, -⟩ := filter_step_once today 2 _ msgs2 s hs 1 (by rw [e1]; norm_num) h2
  obtain ⟨c3, -, -⟩ := filter_step_once today 2 _ msgs3 s hs 2 (by rw [e2]; norm_num) h3
  refine ⟨?_, ?_, ?_⟩
  · rw [← List.count_pos_iff, c1]
    norm_num
  · rw [← List.count_pos_iff, c2]
    norm_num
  · rw [← List.count_pos_iff, c3]
    norm_num

/-- C3: a stored signature last seen on a different day is reset on the next
sighting: its count becomes 1, its `last_seen` becomes the current day, and
it is notified whenever the threshold is at least 1, regardless of the old
count. -/
theorem c3_daily_reset (today : String) (t : Int) (mem : Memory) (messages : List String)
    (s : String) (c : Int) (d : String)
    (hs : s ≠ "") (hd : d ≠ today) (hmem : lookupMem mem s = some ⟨c, d⟩)
    (hocc : occCount s messages = 1) (ht : 1 ≤ t) :
    lookupMem (filter_messages_by_memory today t mem messages).2 s = some ⟨1, today⟩ ∧
    s ∈ (filter_messages_by_memory today t mem messages).1 := by
  have he : effCount today mem s = 0 := by
    unfold effCount
    rw [hmem]
    simp [hd]
  obtain ⟨hc, -, hl⟩ := filter_step_once today t mem messages s hs 0 he hocc
  refine ⟨by simpa using hl, ?_⟩
  rw [← List.count_pos_iff, hc]
  omega

/-- C4: every entry of the memory persisted by a classification call has
`last_seen` equal to the call's current day. -/
theorem c4_pruning_invariant (today : String) (threshold : Int) (mem : Memory)
    (messages : List String) (p : String × MemEntry)
    (hp : p ∈ (filter_messages_by_memory today threshold mem messages).2) :
    p.2.lastSeen = today := by
  rw [filter_messages_snd] at hp
  simpa using (List.mem_filter.mp hp).2

/-- C5 fails as stated: with an unreadable store (hence an empty memory)
and the default threshold 2, three identical candidates are not all
notified — the third occurrence reaches count 3 and is suppressed, so not
every candidate is "treated as first-seen and included". -/
theorem c5_counterexample :
    (classify .unreadable true "2025-01-01" 2 ["a", "a", "a"]).1 = ["a", "a"] ∧
    (classify .unreadable true "2025-01-01" 2 ["a", "a", "a"]).1 ≠ ["a", "a", "a"] := by
  decide

/-- C5 (amended): when the memory store cannot be read, classification
proceeds exactly as with an empty memory; in particular, whenever the
candidates strip to distinct non-blank signatures and the threshold is at
least 1, every candidate is notified (as its stripped form, with count 1);
and the returned value never depends on whether the write succeeds. -/
theorem c5_fail_open_amended (read : StoreRead) (w w' : Bool) (today : String) (t : Int)
    (messages : List String)
    (hread : read.isFailure = true) (ht : 1 ≤ t)
    (hblank : ∀ m ∈ messages, pyStrip m ≠ "")
    (hnodup : (messages.map pyStrip).Nodup) :
    classify read w today t messages = filter_messages_by_memory today t [] messages ∧
    (classify read w today t messages).1 = messages.map pyStrip ∧
    classify read w today t messages = classify read w' today t messages := by
  have hload : load_memory read = [] := by
    cases read with
    | stored mem => simp [StoreRead.isFailure] at hread
    | absent => rfl
    | unreadable => rfl
    | notDict => rfl
  refine ⟨by rw [classify, hload], ?_, rfl⟩
  rw [classify, hload, filter_messages_fst]
  exact processMessages_all_first_seen today t ht messages []
    hblank (fun m _ => rfl) hnodup

/-- C6 fails as stated: at local hour 0 the code takes the `hour < 18`
branch and returns 3, not the claimed 4. -/
theorem c6_counterexample :
    get_check_days_count 0 = 3 ∧ get_check_days_count 0 ≠ 4 := by
  decide

/-- C6 (amended): `get_check_days_count` returns 3 at local hour 17, 4 at
local hours 18 and 23, and 3 at local hour 0 (the function is 3 whenever
`hour < 18`, else 4). -/
theorem c6_day_count_boundary :
    get_check_days_count 17 = 3 ∧ get_check_days_count 18 = 4 ∧
    get_check_days_count 23 = 4 ∧ get_check_days_count 0 = 3 := by
  decide

/-- C9: when the configured minimum of continuous hours is below 2, `main`
skips the merge and hands the morning-filtered raw lines, unchanged and in
order, to the suppression stage. -/
theorem c9_merge_bypass (least : Nat) (includeMorning : Bool) (lines : List String)
    (h : least < 2) :
    mainCandidates least includeMorning lines =
      lines.filter (fun ln => includeMorning || !containsSub "上午".data ln.data) := by
  unfold mainCandidates
  rw [if_neg (by omega)]

/-- C10: within one call, `k` same-day duplicates of a signature with prior
stored count `c` raise the stored count to `c + k`, and exactly
`max 0 (min t (c + k) - c)` of the `k` occurrences are notified, the
notified list being an in-order selection of the stripped candidates. -/
theorem c10_duplicate_candidates (today : String) (t : Int) (mem : Memory)
    (messages : List String) (s : String) (c : Int) (k : Nat)
    (hs : s ≠ "") (hmem : lookupMem mem s = some ⟨c, today⟩)
    (hk : occCount s messages = k) :
    lookupMem (filter_messages_by_memory today t mem messages).2 s =
      some ⟨c + k, today⟩ ∧
    List.count s (filter_messages_by_memory today t mem messages).1 =
      (min t (c + k) - c).toNat ∧
    (filter_messages_by_memory today t mem messages).1.Sublist
      (messages.filterMap fun m => if pyStrip m = "" then none else some (pyStrip m)) := by
  have he : effCount today mem s = c := by
    unfold effCount
    rw [hmem]
    simp
  obtain ⟨hc, hl⟩ := processMessages_key today t s hs messages mem
  rw [he, hk] at hc hl
  have hl' : lookupMem (processMessages today t mem messages).2 s = some ⟨c + k, today⟩ := by
    by_cases hz : k = 0
    · rw [hl, if_pos hz, hmem, hz]
      norm_num
    · rw [hl, if_neg hz]
  refine ⟨?_, ?_, ?_⟩
  · rw [filter_messages_snd]
    exact lookupMem_filter_today today _ s ⟨c + k, today⟩ hl' rfl
  · rw [filter_messages_fst, hc]
    omega
  · rw [filter_messages_fst]
    exact processMessages_sublist today t messages mem

/-- Concrete instance of C2: three same-day calls on signature `"a"` with an
initially empty memory. -/
theorem c2_suppression_threshold_witness :
    (("a" : String) ≠ "" ∧ effCount "2025-07-01" [] "a" = 0 ∧ occCount "a" ["a"] = 1) ∧
    ("a" ∈ (filter_messages_by_memory "2025-07-01" 2 [] ["a"]).1 ∧
     "a" ∈ (filter_messages_by_memory "2025-07-01" 2
            (filter_messages_by_memory "2025-07-01" 2 [] ["a"]).2 ["a"]).1 ∧
     "a" ∉ (filter_messages_by_memory "2025-07-01" 2
            (filter_messages_by_memory "2025-07-01" 2
              (filter_messages_by_memory "2025-07-01" 2 [] ["a"]).2 ["a"]).2 ["a"]).1) :=
  ⟨⟨by decide, by decide, by decide⟩,
   c2_suppression_threshold "2025-07-01" [] "a" ["a"] ["a"] ["a"]
     (by decide) (by decide) (by decide) (by decide) (by decide)⟩

/-- Concrete instance of C3: an entry of count 5 from the previous day is
reset to 1 and notified. -/
theorem c3_daily_reset_witness :
    (("a" : String) ≠ "" ∧ ("2025-07-01" : String) ≠ "2025-07-02" ∧
     lookupMem [("a", ⟨5, "2025-07-01"⟩)] "a" = some ⟨5, "2025-07-01"⟩ ∧
     occCount "a" ["a"] = 1 ∧ (1 : Int) ≤ 2) ∧
    (lookupMem (filter_messages_by_memory "2025-07-02" 2
        [("a", ⟨5, "2025-07-01"⟩)] ["a"]).2 "a" = some ⟨1, "2025-07-02"⟩ ∧
     "a" ∈ (filter_messages_by_memory "2025-07-02" 2
        [("a", ⟨5, "2025-07-01"⟩)] ["a"]).1) :=
  ⟨⟨by decide, by decide, by decide, by decide, by decide⟩,
   c3_daily_reset "2025-07-02" 2 [("a", ⟨5, "2025-07-01"⟩)] ["a"] "a" 5 "2025-07-01"
     (by decide) (by decide) (by decide) (by decide) (by decide)⟩

/-- Concrete instance of C4: the surviving entry of a call on 2025-07-02
carries that day. -/
theorem c4_pruning_invariant_witness :
    (("a", (⟨1, "2025-07-02"⟩ : MemEntry)) ∈
      (filter_messages_by_memory "2025-07-02" 2 [("x", ⟨1, "2025-07-01"⟩)] ["a"]).2) ∧
    ("a", (⟨1, "2025-07-02"⟩ : MemEntry)).2.lastSeen = "2025-07-02" :=
  ⟨by decide,
   c4_pruning_invariant "2025-07-02" 2 [("x", ⟨1, "2025-07-01"⟩)] ["a"]
     ("a", ⟨1, "2025-07-02"⟩) (by decide)⟩

/-- Concrete instance of C5 (amended): an unreadable store notifies both
distinct candidates, independently of the write outcome. -/
theorem c5_fail_open_amended_witness :
    (StoreRead.isFailure .unreadable = true ∧ (1 : Int) ≤ 2 ∧
     (∀ m ∈ (["a", "b"] : List String), pyStrip m ≠ "") ∧
     ((["a", "b"] : List String).map pyStrip).Nodup) ∧
    (classify .unreadable true "2025-07-01" 2 ["a", "b"] =
        filter_messages_by_memory "2025-07-01" 2 [] ["a", "b"] ∧
     (classify .unreadable true "2025-07-01" 2 ["a", "b"]).1 =
        (["a", "b"] : List String).map pyStrip ∧
     classify .unreadable true "2025-07-01" 2 ["a", "b"] =
        classify .unreadable false "2025-07-01" 2 ["a", "b"]) :=
  ⟨⟨by decide, by decide, by decide, by decide⟩,
   c5_fail_open_amended .unreadable true false "2025-07-01" 2 ["a", "b"]
     (by decide) (by decide) (by decide) (by decide)⟩

/-- Concrete instance of C9: with a minimum of 1 hour, the morning line is
filtered out and the remaining raw line passes through unmerged. -/
theorem c9_merge_bypass_witness :
    1 < 2 ∧
    mainCandidates 1 false
        ["12-02 周二 上午 | A (08:00-09:00)", "12-02 周二 下午 | B (13:00-14:00)"] =
      ["12-02 周二 下午 | B (13:00-14:00)"] := by
  refine ⟨by decide, ?_⟩
  rw [c9_merge_bypass 1 false _ (by decide)]
  decide

/-- Concrete instance of C10: two same-call duplicates on top of a stored
same-day count of 1, with threshold 2: the store ends at 3 and exactly one
occurrence is notified. -/
theorem c10_duplicate_candidates_witness :
    (("a" : String) ≠ "" ∧
     lookupMem [("a", ⟨1, "2025-07-01"⟩)] "a" = some ⟨1, "2025-07-01"⟩ ∧
     occCount "a" ["a", "b", "a"] = 2) ∧
    (lookupMem (filter_messages_by_memory "2025-07-01" 2
        [("a", ⟨1, "2025-07-01"⟩)] ["a", "b", "a"]).2 "a" =
          some ⟨1 + ((2 : Nat) : Int), "2025-07-01"⟩ ∧
     List.count "a" (filter_messages_by_memory "2025-07-01" 2
        [("a", ⟨1, "2025-07-01"⟩)] ["a", "b", "a"]).1 =
          (min (2 : Int) (1 + ((2 : Nat) : Int)) - 1).toNat ∧
     (filter_messages_by_memory "2025-07-01" 2
        [("a", ⟨1, "2025-07-01"⟩)] ["a", "b", "a"]).1.Sublist
       ((["a", "b", "a"] : List String).filterMap
         fun m => if pyStrip m = "" then none else some (pyStrip m))) :=
  ⟨⟨by decide, by decide, by decide⟩,
   c10_duplicate_candidates "2025-07-01" 2 [("a", ⟨1, "2025-07-01"⟩)] ["a", "b", "a"]
     "a" 1 2 (by decide) (by decide) (by decide)⟩

end Monitor
